/-
Verification of the polyglot-ui reachability-filtered catalog extraction
and merge engine, as a shallow embedding of the Python sources
(src/polyglot_ui/update.py, modules.py, html.py, helptexts.py, compile.py).

Machine strings are Lean String values; catalogs are lists of entries;
filesystem and loaded-module state are explicit first-order data.
-/

import Mathlib

/-! ## Python string primitives -/

/-- Whitespace characters recognised by Python's default ASCII str.strip
(unicode spaces are not modelled; no claim depends on them). -/
def pyIsSpace (c : Char) : Bool :=
  c = ' ' || c = '\t' || c = '\n' || c = '\r' || c = '\x0b' || c = '\x0c'

/-- Truthiness test `not s or not s.strip()` from update.py: the string is
empty or consists entirely of whitespace. -/
def pyBlank (s : String) : Bool :=
  s.toList.all pyIsSpace

/-- Fuel-driven core of Python's str.replace: scan left to right, replacing
each non-overlapping occurrence of pat by rep.  Fuel is the input length,
which suffices because each step consumes at least one character. -/
def replaceCore (pat rep : List Char) : Nat → List Char → List Char
  | 0, s => s
  | _ + 1, [] => []
  | f + 1, c :: rest =>
    if pat.isPrefixOf (c :: rest) then
      rep ++ replaceCore pat rep f (List.drop (pat.length - 1) rest)
    else
      c :: replaceCore pat rep f rest

/-- Python str.replace for a non-empty pattern. -/
def pyReplace (s pat rep : String) : String :=
  String.mk (replaceCore pat.toList rep.toList s.length s.toList)

/-- Python str.split(sep) for a single-character separator (keeps empty
pieces, returns one piece for the empty string). -/
def splitCharCore (sep : Char) : List Char → List Char → List (List Char)
  | [], cur => [cur.reverse]
  | c :: rest, cur =>
    if c = sep then cur.reverse :: splitCharCore sep rest []
    else splitCharCore sep rest (c :: cur)

/-- k.split(".") from the Python sources. -/
def splitDots (s : String) : List String :=
  (splitCharCore '.' s.toList []).map String.mk

/-- path.split("/") pieces used by the path parser. -/
def splitSlash (s : String) : List String :=
  (splitCharCore '/' s.toList []).map String.mk

/-- ".".join(parts) from the Python sources. -/
def dotJoin : List String → String
  | [] => ""
  | [x] => x
  | x :: xs => x ++ "." ++ dotJoin xs

/-- Python str.endswith. -/
def pyEndsWith (s suf : String) : Bool :=
  suf.toList.isSuffixOf s.toList

/-! ## Catalog model (polib POEntry / POFile collaborator)

Modelled from the spec: polib is the catalog I/O collaborator, not part of
this repository.  A catalog entry carries msgid, optional msgid_plural
(absent encoded as "", matching polib's falsy default), msgstr, the
contiguous plural slots msgstr_plural (spec: indices contiguous from 0),
the fuzzy flag and the recorded (source-location, line) occurrences. -/

structure Entry where
  msgid : String
  msgid_plural : String
  msgstr : String
  msgstr_plural : List String
  fuzzy : Bool
  occurrences : List (String × Nat)
deriving DecidableEq

/-- Modelled from the spec: polib's POEntry.translated, the derived state
"true iff msgstr is non-empty (singular) or all plural slots are non-empty
(plural)". -/
def Entry.translated (e : Entry) : Bool :=
  if e.msgstr ≠ "" then true
  else if e.msgstr_plural ≠ [] then e.msgstr_plural.all (fun s => s ≠ "")
  else false

/-- Modelled from the spec: polib's POFile.find — exact, case-sensitive
msgid lookup returning the first matching entry. -/
def findEntry (cat : List Entry) (m : String) : Option Entry :=
  cat.find? (fun e => e.msgid == m)

/-- In-place mutation through the alias returned by po.find: replace the
first entry whose msgid matches. -/
def updateFirst (cat : List Entry) (m : String) (f : Entry → Entry) : List Entry :=
  match cat with
  | [] => []
  | e :: es => if e.msgid == m then f e :: es else e :: updateFirst es m f

/-! ## Merge engine (update.py, run, lines 40-126) -/

/-- The "msgstr" field of a structured translation record: a single string,
a list of plural forms, or some other JSON value (handled by neither
isinstance branch in update.py). -/
inductive MsgVal where
  | single (s : String)
  | plural (l : List String)
  | badShape
deriving DecidableEq

/-- One value of the merge-input JSON object: a legacy plain string, a
structured object whose optional "msgstr" field is a MsgVal, or any other
JSON value (neither str nor dict, handled by neither branch). -/
inductive TransValue where
  | legacy (s : String)
  | structured (mv : Option MsgVal)
  | otherTop
deriving DecidableEq

/-- The needs_update scan of update.py lines 91-99: walk the supplied
plural forms; an index beyond the existing slots or a differing value
triggers an update. -/
def needsUpdate : List String → List String → Bool
  | _, [] => false
  | [], _ :: _ => true
  | o :: os, p :: ps => if o ≠ p then true else needsUpdate os ps

/-- The assignment loop of update.py lines 103-104 over a contiguous
msgstr_plural mapping: overwrite every provided index, keeping any
existing higher slots. -/
def overwriteSlots : List String → List String → List String
  | old, [] => old
  | _ :: os, p :: ps => p :: overwriteSlots os ps
  | [], p :: ps => p :: overwriteSlots [] ps

/-- entry.msgstr = s; entry.fuzzy = False (update.py lines 57-58, 119-120). -/
def updSingular (e : Entry) (s : String) : Entry :=
  ⟨e.msgid, e.msgid_plural, s, e.msgstr_plural, false, e.occurrences⟩

/-- entry.msgstr_plural[idx] = ...; entry.fuzzy = False (lines 103-106). -/
def updPlural (e : Entry) (l : List String) : Entry :=
  ⟨e.msgid, e.msgid_plural, e.msgstr, overwriteSlots e.msgstr_plural l, false, e.occurrences⟩

/-- The three merge counters of update.py. -/
structure MergeStats where
  updated : Nat
  skipped : Nat
  not_found : Nat
deriving DecidableEq

def statAdd (a b : MergeStats) : MergeStats :=
  ⟨a.updated + b.updated, a.skipped + b.skipped, a.not_found + b.not_found⟩

/-- Processing of one (msgid, value) item of the merge input
(update.py lines 40-126), returning the new catalog and the counter
deltas contributed by this record. -/
def mergeStep (cat : List Entry) (r : String × TransValue) : List Entry × MergeStats :=
  match r with
  | (m, .legacy s) =>
    if pyBlank s then (cat, ⟨0, 1, 0⟩)
    else
      match findEntry cat m with
      | some e =>
        if e.msgstr == "" || e.msgstr != s then
          (updateFirst cat m (fun x => updSingular x s), ⟨1, 0, 0⟩)
        else (cat, ⟨0, 0, 0⟩)
      | none => (cat, ⟨0, 0, 1⟩)
  | (m, .structured mv) =>
    match findEntry cat m with
    | none => (cat, ⟨0, 0, 1⟩)
    | some e =>
      match mv with
      | none => (cat, ⟨0, 1, 0⟩)
      | some (.single s) =>
        if pyBlank s then (cat, ⟨0, 1, 0⟩)
        else if e.msgstr == "" || e.msgstr != s then
          (updateFirst cat m (fun x => updSingular x s), ⟨1, 0, 0⟩)
        else (cat, ⟨0, 0, 0⟩)
      | some (.plural l) =>
        if e.msgid_plural == "" then (cat, ⟨0, 1, 0⟩)
        else if !(l.any (fun s => !(pyBlank s))) then (cat, ⟨0, 1, 0⟩)
        else if needsUpdate e.msgstr_plural l then
          (updateFirst cat m (fun x => updPlural x l), ⟨1, 0, 0⟩)
        else (cat, ⟨0, 0, 0⟩)
      | some .badShape => (cat, ⟨0, 0, 0⟩)
  | (_, .otherTop) => (cat, ⟨0, 0, 0⟩)

/-- The whole merge loop over translations.items(), accumulating counters. -/
def mergeAll : List (String × TransValue) → List Entry → List Entry × MergeStats
  | [], cat => (cat, ⟨0, 0, 0⟩)
  | r :: rs, cat =>
    let p := mergeStep cat r
    let q := mergeAll rs p.1
    (q.1, statAdd p.2 q.2)

/-- The conditions under which update.py counts a record as updated:
entry found and the supplied value genuinely differs (legacy or
structured singular: non-blank and different msgstr; structured plural:
declared msgid_plural, some non-blank form, and needs_update). -/
def mergeApplies (cat : List Entry) (r : String × TransValue) : Bool :=
  match r with
  | (m, .legacy s) =>
    !(pyBlank s) &&
      (match findEntry cat m with
       | some e => e.msgstr == "" || e.msgstr != s
       | none => false)
  | (m, .structured (some (.single s))) =>
    !(pyBlank s) &&
      (match findEntry cat m with
       | some e => e.msgstr == "" || e.msgstr != s
       | none => false)
  | (m, .structured (some (.plural l))) =>
    (match findEntry cat m with
     | some e =>
       e.msgid_plural != "" && l.any (fun s => !(pyBlank s)) &&
         needsUpdate e.msgstr_plural l
     | none => false)
  | _ => false

/-- A merge-input value that reaches the catalog lookup: any structured
object, or a legacy string that passes the emptiness check performed
before the lookup. -/
def reachesLookup (v : TransValue) : Bool :=
  match v with
  | .legacy s => !(pyBlank s)
  | .structured _ => true
  | .otherTop => false

/-! ## Extraction pipeline (modules.py / html.py shape) -/

/-- The exchange record entry_dict: msgid plus msgid_plural when the
entry declares one ("" encodes the key being omitted). -/
structure XRecord where
  msgid : String
  msgid_plural : String
deriving DecidableEq

/-- entry_dict construction of modules.py lines 94-98. -/
def entryDict (e : Entry) : XRecord :=
  ⟨e.msgid, e.msgid_plural⟩

/-- The shared extraction loop: skip translated entries, skip unreachable
ones, and append the entry_dict unless a record with the same msgid was
already appended (modules.py lines 25-112, html.py lines 21-56). -/
def extractGo (reach : Entry → Bool) : List Entry → List XRecord → List XRecord
  | [], acc => acc
  | e :: es, acc =>
    if e.translated then extractGo reach es acc
    else if reach e then
      if acc.any (fun r => r.msgid == e.msgid) then extractGo reach es acc
      else extractGo reach es (acc ++ [entryDict e])
    else extractGo reach es acc

def extractWith (reach : Entry → Bool) (cat : List Entry) : List XRecord :=
  extractGo reach cat []

/-- has_html_source of html.py lines 27-32: some occurrence path ends
with ".html". -/
def hasHtmlSource (e : Entry) : Bool :=
  e.occurrences.any (fun oc => pyEndsWith oc.1 ".html")

/-- Template-source extraction (html.py run). -/
def htmlExtract (cat : List Entry) : List XRecord :=
  extractWith hasHtmlSource cat

/-! ## Module-path reachability (modules.py, run, lines 31-112) -/

/-- A pathlib.PurePosixPath: absolute flag plus the non-empty, non-"."
components. -/
structure PPath where
  absFlag : Bool
  parts : List String
deriving DecidableEq

/-- Path(s) for a POSIX path string. -/
def parsePath (s : String) : PPath :=
  ⟨(match s.toList with | '/' :: _ => true | _ => false),
   (splitSlash s).filter (fun p => p ≠ "" && p ≠ ".")⟩

/-- mod_root / p (only used on relative p). -/
def joinPath (root p : PPath) : PPath :=
  ⟨root.absFlag, root.parts ++ p.parts⟩

/-- The state the module strategy consults: the set of existing files,
sys.modules as a map from dotted names to object handles, and the
attribute tables backing hasattr/getattr.  Object handles are numbers. -/
structure World where
  fs : List PPath
  mods : List (String × Nat)
  attrs : List (Nat × String × Nat)

/-- abs_file_path.exists(). -/
def pathExists (w : World) (p : PPath) : Bool :=
  w.fs.any (fun q => q == p)

/-- path.name: the final component ("" for an empty path). -/
def lastName (p : PPath) : String :=
  (p.parts.getLast?).getD ""

/-- Index of the last occurrence of a character. -/
def rfindChar (c : Char) : List Char → Option Nat
  | [] => none
  | x :: xs =>
    match rfindChar c xs with
    | some i => some (i + 1)
    | none => if x = c then some 0 else none

/-- pathlib suffix of a file name: the part from the last dot, provided
the dot is neither leading nor trailing. -/
def nameSuffix (n : String) : String :=
  match rfindChar '.' n.toList with
  | some i =>
    if 0 < i ∧ i < n.toList.length - 1 then String.mk (n.toList.drop i) else ""
  | none => ""

/-- pathlib stem of a file name: the name with its suffix removed. -/
def nameStem (n : String) : String :=
  match rfindChar '.' n.toList with
  | some i =>
    if 0 < i ∧ i < n.toList.length - 1 then String.mk (n.toList.take i) else n
  | none => n

/-- path.suffix. -/
def pathSuffix (p : PPath) : String :=
  nameSuffix (lastName p)

/-- path.with_suffix(''): drop the suffix of the final component. -/
def dropPathSuffix (p : PPath) : PPath :=
  ⟨p.absFlag, p.parts.dropLast ++ [nameStem (lastName p)]⟩

/-- path.with_suffix('.mo') as used by update.py line 133. -/
def withSuffixMo (p : PPath) : PPath :=
  ⟨p.absFlag, p.parts.dropLast ++ [nameStem (lastName p) ++ ".mo"]⟩

/-- module_path.relative_to(mod_root): the remaining components, or none
when the path is not under the root (the ValueError branch). -/
def relParts (root p : PPath) : Option (List String) :=
  if root.absFlag == p.absFlag && root.parts.isPrefixOf p.parts then
    some (p.parts.drop root.parts.length)
  else none

/-- sys.modules lookup. -/
def lookupMod (w : World) (n : String) : Option Nat :=
  (w.mods.find? (fun kv => kv.1 == n)).map (fun kv => kv.2)

/-- getattr(obj, a) when hasattr(obj, a), else none. -/
def getattrW (w : World) (o : Nat) (a : String) : Option Nat :=
  (w.attrs.find? (fun t => t.1 == o && t.2.1 == a)).map (fun t => t.2.2)

/-- The inner attribute walk of modules.py lines 80-86: succeed only when
every remaining segment resolves as an attribute (an empty remainder
leaves module_imported false). -/
def walkAttrs (w : World) : Nat → List String → Bool
  | _, [] => false
  | o, a :: rest =>
    match getattrW w o a with
    | none => false
    | some o2 =>
      match rest with
      | [] => true
      | _ :: _ => walkAttrs w o2 rest

/-- The progressive fallback of modules.py lines 74-88: try prefixes of
the dotted name from the longest down to one segment; on a prefix known
to sys.modules, walk the remaining segments as attributes; on failure
continue with the next shorter prefix. -/
def fallbackFrom (w : World) (parts : List String) : Nat → Bool
  | 0 => false
  | k + 1 =>
    match lookupMod w (dotJoin (parts.take (k + 1))) with
    | some o =>
      if walkAttrs w o (parts.drop (k + 1)) then true
      else fallbackFrom w parts k
    | none => fallbackFrom w parts k

/-- module_imported computation of modules.py lines 67-88: exact
sys.modules hit, else the progressive prefix fallback. -/
def moduleImported (w : World) (name : String) : Bool :=
  if (lookupMod w name).isSome then true
  else
    fallbackFrom w (splitDots name) (splitDots name).length

/-- The resolved occurrence path of modules.py lines 35-42: relative
paths are joined under the package root. -/
def occResolved (modRoot : PPath) (occ : String × Nat) : PPath :=
  let p0 := parsePath occ.1
  if p0.absFlag then p0 else joinPath modRoot p0

/-- Whole per-occurrence check of modules.py lines 31-88: a missing file
is skipped (false); otherwise strip a .py suffix, derive the dotted module
name relative to the root (falling back to the bare stem), and test it
against the loaded modules. -/
def occImported (w : World) (modRoot : PPath) (occ : String × Nat) : Bool :=
  let p1 := occResolved modRoot occ
  if !(pathExists w p1) then false
  else
    let mp := if pathSuffix p1 == ".py" then dropPathSuffix p1 else p1
    let name :=
      match relParts modRoot mp with
      | some rel => dotJoin rel
      | none => nameStem (lastName mp)
    moduleImported w name

/-- Entry-level module reachability: some occurrence passes the check
(the loop breaks at the first success). -/
def moduleReach (w : World) (modRoot : PPath) (occs : List (String × Nat)) : Bool :=
  occs.any (occImported w modRoot)

/-- Module-path extraction (modules.py run). -/
def modulesExtract (w : World) (modRoot : PPath) (cat : List Entry) : List XRecord :=
  extractWith (fun e => moduleReach w modRoot e.occurrences) cat

/-! ## Dotted-symbol reachability and help-text extraction (helptexts.py) -/

/-- The left-to-right walk of helptexts.py lines 22-33, carrying the
processed segments and the current object. -/
def walkParts (w : World) : List String → List String → Option Nat → Option Nat
  | [], _, obj => obj
  | p :: rest, prev, obj =>
    match lookupMod w (dotJoin (prev ++ [p])) with
    | some o => walkParts w rest (prev ++ [p]) (some o)
    | none =>
      match obj with
      | some o =>
        match getattrW w o p with
        | some o2 => walkParts w rest (prev ++ [p]) (some o2)
        | none => none
      | none => none

/-- Resolution of one dotted help-text key. -/
def resolveKey (w : World) (k : String) : Option Nat :=
  walkParts w (splitDots k) [] none

/-- The help-text extraction loop of helptexts.py lines 21-59. -/
def helptextsGo (w : World) (cat : List Entry) :
    List (String × String) → List XRecord → List XRecord
  | [], acc => acc
  | (k, s) :: rest, acc =>
    match resolveKey w k with
    | none => helptextsGo w cat rest acc
    | some _ =>
      match findEntry cat s with
      | none => helptextsGo w cat rest acc
      | some e =>
        if e.translated then helptextsGo w cat rest acc
        else if acc.any (fun r => r.msgid == s) then helptextsGo w cat rest acc
        else helptextsGo w cat rest (acc ++ [⟨s, e.msgid_plural⟩])

def helptextsExtract (w : World) (hts : List (String × String)) (cat : List Entry) :
    List XRecord :=
  helptextsGo w cat hts []

/-! ## Binary compilation paths (compile.py line 10, update.py line 133) -/

/-- mo_file_path = args.po_file.replace('.po', '.mo'). -/
def compileMoPath (poFile : String) : String :=
  pyReplace poFile ".po" ".mo"

/-! ## Spec-side definitions for refinement statements -/

/-- Modelled from the spec's dedup wording: keep the first record for each
msgid, dropping all later records carrying the same msgid. -/
def firstWins : List XRecord → List XRecord
  | [] => []
  | r :: rs => r :: firstWins (rs.filter (fun x => x.msgid != r.msgid))
termination_by l => l.length
decreasing_by
  exact Nat.lt_succ_of_le (List.length_filter_le _ _)

/-- Modelled from the spec's description of the dotted-symbol walk: a
nonempty initial segment list resolves to an object by, at each step,
first resolving the entire dotted prefix directly against the loaded
modules (adopting that object), and otherwise looking the new segment up
as an attribute of the previously resolved object. -/
inductive PrefixRes (w : World) : List String → Nat → Prop where
  | direct_first (p : String) (o : Nat)
      (h : lookupMod w (dotJoin [p]) = some o) :
      PrefixRes w [p] o
  | direct_step (ps : List String) (p : String) (o o' : Nat)
      (hp : PrefixRes w ps o')
      (h : lookupMod w (dotJoin (ps ++ [p])) = some o) :
      PrefixRes w (ps ++ [p]) o
  | attr_step (ps : List String) (p : String) (o o' : Nat)
      (hp : PrefixRes w ps o')
      (hd : lookupMod w (dotJoin (ps ++ [p])) = none)
      (h : getattrW w o' p = some o) :
      PrefixRes w (ps ++ [p]) o

/-! ## Helper lemmas -/

theorem isPrefixOf_self (l : List Char) : l.isPrefixOf l = true := by
  induction l with
  | nil => rfl
  | cons c cs ih => simp [List.isPrefixOf, ih]

theorem replaceCore_nil (pat rep : List Char) (f : Nat) :
    replaceCore pat rep f [] = [] := by
  cases f <;> rfl

theorem replaceCore_append_pat (pat rep : List Char) (hp : pat ≠ []) :
    ∀ (s : List Char) (fuel : Nat), s.length + 1 ≤ fuel →
    (∀ i, i < s.length → pat.isPrefixOf (List.drop i (s ++ pat)) = false) →
    replaceCore pat rep fuel (s ++ pat) = s ++ rep := by
  intro s
  induction s with
  | nil =>
    intro fuel hfuel _
    cases fuel with
    | zero => omega
    | succ f =>
      cases pat with
      | nil => exact absurd rfl hp
      | cons c pt =>
        simp only [List.nil_append, replaceCore, isPrefixOf_self, if_true]
        have hd : List.drop ((c :: pt).length - 1) pt = [] := by
          simp [List.drop_length]
        rw [hd, replaceCore_nil]
        simp
  | cons c s' ih =>
    intro fuel hfuel h
    cases fuel with
    | zero => omega
    | succ f =>
      have h0 : pat.isPrefixOf (c :: (s' ++ pat)) = false := by
        have := h 0 (by simp)
        simpa using this
      rw [List.cons_append]
      simp only [replaceCore]
      rw [h0]
      simp only [Bool.false_eq_true, if_false, List.cons_append, List.cons.injEq,
        true_and]
      rw [ih f (by simp at hfuel ⊢; omega)]
      intro i hi
      have := h (i + 1) (by simp; omega)
      simpa using this

theorem statAdd_zero (d : MergeStats) : statAdd d ⟨0, 0, 0⟩ = d := by
  cases d; simp [statAdd]

theorem pyBlank_ne_empty {s : String} (h : pyBlank s = false) : s ≠ "" := by
  intro he; subst he; simp [pyBlank] at h

theorem findEntry_updateFirst (cat : List Entry) (m : String) (f : Entry → Entry)
    (hf : ∀ x, (f x).msgid = x.msgid) :
    findEntry (updateFirst cat m f) m = (findEntry cat m).map f := by
  induction cat with
  | nil => simp [findEntry, updateFirst]
  | cons e es ih =>
    simp only [findEntry, updateFirst]
    cases hm : (e.msgid == m) with
    | true =>
      simp [List.find?, hf, hm]
    | false =>
      simp only [List.find?, hm]
      exact ih

theorem needsUpdate_overwrite (l : List String) :
    ∀ old, needsUpdate (overwriteSlots old l) l = false := by
  induction l with
  | nil => intro old; cases old <;> rfl
  | cons p ps ih =>
    intro old
    cases old with
    | nil => simp [overwriteSlots, needsUpdate, ih]
    | cons o os => simp [overwriteSlots, needsUpdate, ih]

theorem mergeStep_stats (c : List Entry) (r : String × TransValue) :
    (mergeStep c r).2 = ⟨1, 0, 0⟩ ∨ (mergeStep c r).2 = ⟨0, 1, 0⟩ ∨
    (mergeStep c r).2 = ⟨0, 0, 1⟩ ∨ (mergeStep c r).2 = ⟨0, 0, 0⟩ := by
  obtain ⟨m, v⟩ := r
  rcases v with s | mv | _ <;> unfold mergeStep <;> (repeat' split) <;> simp

theorem mergeAll_cons (r : String × TransValue) (rs : List (String × TransValue))
    (cat : List Entry) :
    mergeAll (r :: rs) cat =
      ((mergeAll rs (mergeStep cat r).1).1,
        statAdd (mergeStep cat r).2 (mergeAll rs (mergeStep cat r).1).2) := rfl

/-! ## C10 -/

/-- C10: merge counter accounting — every record increments at most one of
the three counters and by at most 1, hence updated + skipped + not_found
is at most the number of input records. -/
theorem c10_counter_accounting (rs : List (String × TransValue)) (cat : List Entry) :
    ((mergeAll rs cat).2.updated + (mergeAll rs cat).2.skipped
        + (mergeAll rs cat).2.not_found ≤ rs.length) ∧
    (∀ (c : List Entry) (r : String × TransValue),
      (mergeStep c r).2.updated + (mergeStep c r).2.skipped
        + (mergeStep c r).2.not_found ≤ 1) := by
  constructor
  · induction rs generalizing cat with
    | nil => simp [mergeAll]
    | cons r rs ih =>
      rw [mergeAll_cons]
      have h1 := ih (mergeStep cat r).1
      rcases mergeStep_stats cat r with h | h | h | h <;>
        rw [h] <;> simp [statAdd] <;> omega
  · intro c r
    rcases mergeStep_stats c r with h | h | h | h <;> rw [h] <;> simp

/-! ## C1 -/

/-- C1 counterexample: a legacy record whose string is all whitespace and
whose msgid ("zzz") matches no catalog entry increments skipped, not
not_found — the emptiness check runs before the catalog lookup. -/
theorem c1_blank_unknown_msgid_cx :
    findEntry [⟨"a", "", "", [], false, []⟩] "zzz" = none ∧
    (mergeAll [("zzz", TransValue.legacy " ")] [⟨"a", "", "", [], false, []⟩]).2.not_found = 0 ∧
    (mergeAll [("zzz", TransValue.legacy " ")] [⟨"a", "", "", [], false, []⟩]).2.skipped = 1 ∧
    (mergeAll [("zzz", TransValue.legacy " ")] [⟨"a", "", "", [], false, []⟩]).1
      = [⟨"a", "", "", [], false, []⟩] := by
  refine ⟨rfl, rfl, rfl, rfl⟩

/-- C1 (amended): a merge record whose msgid matches no catalog entry and
whose value reaches the lookup (any structured object, or a legacy string
that is not empty/whitespace) increments not_found by exactly 1, mutates
no entry, and the engine continues with the remaining records.  A blank
legacy string is counted as skipped before the lookup ever happens. -/
theorem c1_unknown_msgid_not_found (cat : List Entry) (rs : List (String × TransValue))
    (m : String) (v : TransValue)
    (hfind : findEntry cat m = none) (hv : reachesLookup v = true) :
    mergeStep cat (m, v) = (cat, ⟨0, 0, 1⟩) ∧
    mergeAll ((m, v) :: rs) cat
      = ((mergeAll rs cat).1, statAdd ⟨0, 0, 1⟩ (mergeAll rs cat).2) := by
  have hstep : mergeStep cat (m, v) = (cat, ⟨0, 0, 1⟩) := by
    rcases v with s | mv | _
    · simp only [reachesLookup, Bool.not_eq_true'] at hv
      simp [mergeStep, hv, hfind]
    · simp [mergeStep, hfind]
    · simp [reachesLookup] at hv
  refine ⟨hstep, ?_⟩
  rw [mergeAll_cons, hstep]

theorem c1_unknown_msgid_not_found_witness :
    findEntry [⟨"a", "", "", [], false, []⟩] "zzz" = none ∧
    reachesLookup (TransValue.legacy "x") = true ∧
    (mergeStep [⟨"a", "", "", [], false, []⟩] ("zzz", TransValue.legacy "x")
        = ([⟨"a", "", "", [], false, []⟩], ⟨0, 0, 1⟩) ∧
      mergeAll [("zzz", TransValue.legacy "x")] [⟨"a", "", "", [], false, []⟩]
        = ((mergeAll [] [⟨"a", "", "", [], false, []⟩]).1,
            statAdd ⟨0, 0, 1⟩ (mergeAll [] [⟨"a", "", "", [], false, []⟩]).2)) :=
  ⟨by decide, by decide,
    c1_unknown_msgid_not_found [⟨"a", "", "", [], false, []⟩] [] "zzz"
      (TransValue.legacy "x") (by decide) (by decide)⟩

/-! ## C5 -/

/-- C5: a plural-list record applied to an entry that does not declare
msgid_plural increments skipped by exactly 1, leaves updated unchanged,
mutates nothing, and the batch continues. -/
theorem c5_plural_requires_declaration (cat : List Entry) (m : String)
    (l : List String) (rs : List (String × TransValue)) (e : Entry)
    (hfind : findEntry cat m = some e) (hp : e.msgid_plural = "") :
    mergeStep cat (m, TransValue.structured (some (MsgVal.plural l))) = (cat, ⟨0, 1, 0⟩) ∧
    mergeAll ((m, TransValue.structured (some (MsgVal.plural l))) :: rs) cat
      = ((mergeAll rs cat).1, statAdd ⟨0, 1, 0⟩ (mergeAll rs cat).2) := by
  have hstep : mergeStep cat (m, TransValue.structured (some (MsgVal.plural l)))
      = (cat, ⟨0, 1, 0⟩) := by
    simp [mergeStep, hfind, hp]
  refine ⟨hstep, ?_⟩
  rw [mergeAll_cons, hstep]

theorem c5_plural_requires_declaration_witness :
    findEntry [⟨"a", "", "", [], false, []⟩] "a" = some ⟨"a", "", "", [], false, []⟩ ∧
    (⟨"a", "", "", [], false, []⟩ : Entry).msgid_plural = "" ∧
    (mergeStep [⟨"a", "", "", [], false, []⟩]
        ("a", TransValue.structured (some (MsgVal.plural ["x", "y"])))
        = ([⟨"a", "", "", [], false, []⟩], ⟨0, 1, 0⟩) ∧
      mergeAll [("a", TransValue.structured (some (MsgVal.plural ["x", "y"])))]
          [⟨"a", "", "", [], false, []⟩]
        = ((mergeAll [] [⟨"a", "", "", [], false, []⟩]).1,
            statAdd ⟨0, 1, 0⟩ (mergeAll [] [⟨"a", "", "", [], false, []⟩]).2)) :=
  ⟨by decide, by decide,
    c5_plural_requires_declaration [⟨"a", "", "", [], false, []⟩] "a" ["x", "y"] []
      ⟨"a", "", "", [], false, []⟩ (by decide) (by decide)⟩

/-! ## C2 -/

/-- C2 counterexample: compile.py derives the binary path with
str.replace, which rewrites every occurrence of ".po"; for the input path
"x.po.po" it produces "x.mo.mo", not the sibling path "x.po.mo" obtained
by replacing only the textual extension. -/
theorem c2_replace_all_occurrences_cx :
    compileMoPath "x.po.po" = "x.mo.mo" ∧ "x.mo.mo" ≠ "x.po.mo" := by
  refine ⟨rfl, by decide⟩

/-- C2 (amended): compile.py replaces every occurrence of the substring
".po" with ".mo"; whenever ".po" occurs in the textual path only as the
final extension, this coincides with extension replacement, so the binary
form lands at the sibling path with ".po" replaced by ".mo".  update.py
derives its binary path with with_suffix('.mo'), which on its
"django.po"-named catalog paths is exact extension replacement. -/
theorem c2_mo_path (stem : String)
    (h : ∀ i, i < stem.length →
      (".po".toList).isPrefixOf (List.drop i (stem.toList ++ ".po".toList)) = false) :
    compileMoPath (stem ++ ".po") = stem ++ ".mo" ∧
    (∀ (b : Bool) (ps : List String),
      withSuffixMo ⟨b, ps ++ ["django.po"]⟩ = ⟨b, ps ++ ["django.mo"]⟩) := by
  constructor
  · obtain ⟨sd⟩ := stem
    show String.mk (replaceCore ".po".toList ".mo".toList
        (String.mk sd ++ ".po").length (String.mk sd ++ ".po").toList)
      = String.mk sd ++ ".mo"
    have hdata : (String.mk sd ++ ".po").toList = sd ++ ".po".toList := rfl
    have hlen : (String.mk sd ++ ".po").length = sd.length + 3 := by
      show (sd ++ ".po".toList).length = sd.length + 3
      simp
    rw [hdata, hlen]
    rw [replaceCore_append_pat ".po".toList ".mo".toList (by decide) sd
      (sd.length + 3) (by omega) (by intro i hi; exact h i hi)]
    rfl
  · intro b ps
    simp only [withSuffixMo, lastName, List.getLast?_concat, Option.getD_some,
      List.dropLast_concat]
    rfl

theorem c2_mo_path_witness :
    (∀ i, i < ("x" : String).length →
      (".po".toList).isPrefixOf
        (List.drop i (("x" : String).toList ++ ".po".toList)) = false) ∧
    (compileMoPath ("x" ++ ".po") = "x" ++ ".mo" ∧
      ∀ (b : Bool) (ps : List String),
        withSuffixMo ⟨b, ps ++ ["django.po"]⟩ = ⟨b, ps ++ ["django.mo"]⟩) :=
  ⟨by decide, c2_mo_path "x" (by decide)⟩

/-! ## C3 -/

theorem findEntry_eq_some {cat : List Entry} {m : String} {e : Entry}
    (h : findEntry cat m = some e) : e.msgid = m := by
  induction cat with
  | nil => simp [findEntry] at h
  | cons x xs ih =>
    simp only [findEntry, List.find?] at h
    cases hx : (x.msgid == m) with
    | true =>
      rw [hx] at h
      simp only [Option.some.injEq] at h
      subst h
      exact (beq_iff_eq.mp hx)
    | false =>
      rw [hx] at h
      exact ih h

theorem mergeStep_twice (cat c1 : List Entry) (r : String × TransValue)
    (d : MergeStats)
    (h1 : mergeStep cat r = (c1, d))
    (h2 : mergeStep c1 r = (c1, ⟨0, 0, 0⟩)) :
    (mergeAll [r] cat).2 = d ∧
    mergeAll [r] (mergeAll [r] cat).1 = ((mergeAll [r] cat).1, ⟨0, 0, 0⟩) := by
  have hs : ∀ c, mergeAll [r] c = ((mergeStep c r).1, (mergeStep c r).2) := by
    intro c
    rw [mergeAll_cons]
    simp [mergeAll, statAdd_zero]
  have e1 : (mergeAll [r] cat).1 = c1 := by rw [hs, h1]
  refine ⟨by rw [hs, h1], ?_⟩
  rw [e1, hs c1, h2]

/-- C3: merge idempotence.  If a record genuinely applies (entry found,
value passes the emptiness checks and differs from the stored value, in
any of the legacy, structured-singular, or structured-plural forms), the
first merge call counts exactly one update and the second identical call
is a complete no-op: the catalog is unchanged and no counter at all is
incremented (the identical-value re-apply case). -/
theorem c3_merge_idempotent (cat : List Entry) (m : String) (v : TransValue)
    (h : mergeApplies cat (m, v) = true) :
    (mergeAll [(m, v)] cat).2 = ⟨1, 0, 0⟩ ∧
    mergeAll [(m, v)] (mergeAll [(m, v)] cat).1
      = ((mergeAll [(m, v)] cat).1, ⟨0, 0, 0⟩) := by
  rcases v with s | mv | _
  · -- legacy string form
    simp only [mergeApplies, Bool.and_eq_true, Bool.not_eq_true'] at h
    obtain ⟨hblank, hfind⟩ := h
    cases hf : findEntry cat m with
    | none => rw [hf] at hfind; simp at hfind
    | some e =>
      rw [hf] at hfind
      have hc : (e.msgstr == "" || e.msgstr != s) = true := hfind
      have hs' : s ≠ "" := pyBlank_ne_empty hblank
      have hstep : mergeStep cat (m, .legacy s)
          = (updateFirst cat m (fun x => updSingular x s), ⟨1, 0, 0⟩) := by
        simp only [mergeStep, hblank, Bool.false_eq_true, if_false, hf]
        rw [hc]
        simp
      have hfind2 : findEntry (updateFirst cat m (fun x => updSingular x s)) m
          = some (updSingular e s) := by
        rw [findEntry_updateFirst cat m (fun x => updSingular x s) (fun x => rfl), hf]
        rfl
      have hcond2 : (((updSingular e s).msgstr == "") || ((updSingular e s).msgstr != s))
          = false := by
        simp [updSingular, hs']
      have hstep2 : mergeStep (updateFirst cat m (fun x => updSingular x s)) (m, .legacy s)
          = (updateFirst cat m (fun x => updSingular x s), ⟨0, 0, 0⟩) := by
        simp only [mergeStep, hblank, Bool.false_eq_true, if_false, hfind2]
        rw [hcond2]
        simp
      exact mergeStep_twice cat _ _ _ hstep hstep2
  · rcases mv with _ | mval
    · simp [mergeApplies] at h
    rcases mval with s | l | _
    · -- structured singular
      simp only [mergeApplies, Bool.and_eq_true, Bool.not_eq_true'] at h
      obtain ⟨hblank, hfind⟩ := h
      cases hf : findEntry cat m with
      | none => rw [hf] at hfind; simp at hfind
      | some e =>
        rw [hf] at hfind
        have hc : (e.msgstr == "" || e.msgstr != s) = true := hfind
        have hs' : s ≠ "" := pyBlank_ne_empty hblank
        have hstep : mergeStep cat (m, .structured (some (.single s)))
            = (updateFirst cat m (fun x => updSingular x s), ⟨1, 0, 0⟩) := by
          simp only [mergeStep, hf, hblank, Bool.false_eq_true, if_false]
          rw [hc]
          simp
        have hfind2 : findEntry (updateFirst cat m (fun x => updSingular x s)) m
            = some (updSingular e s) := by
          rw [findEntry_updateFirst cat m (fun x => updSingular x s) (fun x => rfl), hf]
          rfl
        have hcond2 : (((updSingular e s).msgstr == "") || ((updSingular e s).msgstr != s))
            = false := by
          simp [updSingular, hs']
        have hstep2 : mergeStep (updateFirst cat m (fun x => updSingular x s))
            (m, .structured (some (.single s)))
            = (updateFirst cat m (fun x => updSingular x s), ⟨0, 0, 0⟩) := by
          simp only [mergeStep, hfind2, hblank, Bool.false_eq_true, if_false]
          rw [hcond2]
          simp
        exact mergeStep_twice cat _ _ _ hstep hstep2
    · -- structured plural
      simp only [mergeApplies] at h
      cases hf : findEntry cat m with
      | none => rw [hf] at h; simp at h
      | some e =>
        rw [hf] at h
        have h' : (e.msgid_plural != "" && l.any (fun s => !(pyBlank s))
            && needsUpdate e.msgstr_plural l) = true := h
        simp only [Bool.and_eq_true] at h'
        obtain ⟨⟨hdecl, hany⟩, hneed⟩ := h'
        have hdecl' : (e.msgid_plural == "") = false := by
          simpa [bne] using hdecl
        have hany' : (!(l.any (fun s => !(pyBlank s)))) = false := by
          simp [hany]
        have hstep : mergeStep cat (m, .structured (some (.plural l)))
            = (updateFirst cat m (fun x => updPlural x l), ⟨1, 0, 0⟩) := by
          simp only [mergeStep, hf, hdecl', Bool.false_eq_true, if_false]
          rw [hany']
          simp only [Bool.false_eq_true, if_false]
          rw [hneed]
          simp
        have hfind2 : findEntry (updateFirst cat m (fun x => updPlural x l)) m
            = some (updPlural e l) := by
          rw [findEntry_updateFirst cat m (fun x => updPlural x l) (fun x => rfl), hf]
          rfl
        have hstep2 : mergeStep (updateFirst cat m (fun x => updPlural x l))
            (m, .structured (some (.plural l)))
            = (updateFirst cat m (fun x => updPlural x l), ⟨0, 0, 0⟩) := by
          simp only [mergeStep, hfind2]
          have hdecl2 : ((updPlural e l).msgid_plural == "") = false := hdecl'
          rw [hdecl2]
          simp only [Bool.false_eq_true, if_false]
          rw [hany']
          simp only [Bool.false_eq_true, if_false]
          have hneed2 : needsUpdate (updPlural e l).msgstr_plural l = false :=
            needsUpdate_overwrite l e.msgstr_plural
          rw [hneed2]
          simp
        exact mergeStep_twice cat _ _ _ hstep hstep2
    · simp [mergeApplies] at h
  · simp [mergeApplies] at h

theorem c3_merge_idempotent_witness :
    mergeApplies [⟨"a", "", "", [], false, []⟩] ("a", TransValue.legacy "t") = true ∧
    ((mergeAll [("a", TransValue.legacy "t")] [⟨"a", "", "", [], false, []⟩]).2
        = ⟨1, 0, 0⟩ ∧
      mergeAll [("a", TransValue.legacy "t")]
          (mergeAll [("a", TransValue.legacy "t")] [⟨"a", "", "", [], false, []⟩]).1
        = ((mergeAll [("a", TransValue.legacy "t")] [⟨"a", "", "", [], false, []⟩]).1,
            ⟨0, 0, 0⟩)) :=
  ⟨by decide,
    c3_merge_idempotent [⟨"a", "", "", [], false, []⟩] "a" (TransValue.legacy "t")
      (by decide)⟩

/-! ## C6 -/

theorem bne_comm_str (a b : String) : (a != b) = (b != a) := by
  by_cases h : a = b
  · subst h; rfl
  · have h1 : (a == b) = false := beq_eq_false_iff_ne.mpr h
    have h2 : (b == a) = false := beq_eq_false_iff_ne.mpr (Ne.symm h)
    simp [bne, h1, h2]

theorem all_bne_eq_not_any (acc : List XRecord) (m : String) :
    acc.all (fun a => a.msgid != m) = !(acc.any (fun a => a.msgid == m)) := by
  induction acc with
  | nil => rfl
  | cons r rs ih =>
    simp only [List.all_cons, List.any_cons, Bool.not_or]
    rw [ih]
    simp [bne]

theorem firstWins_cons (r : XRecord) (rs : List XRecord) :
    firstWins (r :: rs) = r :: firstWins (rs.filter (fun x => x.msgid != r.msgid)) := by
  rw [firstWins]

theorem mem_firstWins (x : XRecord) : ∀ (l : List XRecord), x ∈ firstWins l → x ∈ l := by
  intro l
  induction l using firstWins.induct with
  | case1 => simp [firstWins]
  | case2 r rs ih =>
    rw [firstWins_cons]
    intro hx
    rcases List.mem_cons.mp hx with h | h
    · exact h ▸ List.mem_cons_self _ _
    · exact List.mem_cons_of_mem _ (List.mem_filter.mp (ih h)).1

theorem nodup_firstWins : ∀ (l : List XRecord), ((firstWins l).map XRecord.msgid).Nodup := by
  intro l
  induction l using firstWins.induct with
  | case1 => simp [firstWins]
  | case2 r rs ih =>
    rw [firstWins_cons]
    simp only [List.map_cons, List.nodup_cons]
    refine ⟨?_, ih⟩
    intro hmem
    obtain ⟨x, hx, hxid⟩ := List.mem_map.mp hmem
    have hx' := mem_firstWins x _ hx
    have hne := (List.mem_filter.mp hx').2
    simp only [bne_iff_ne, ne_eq] at hne
    exact hne hxid

theorem extractGo_eq (reach : Entry → Bool) :
    ∀ (es : List Entry) (acc : List XRecord),
    extractGo reach es acc
      = acc ++ firstWins
          (((es.filter (fun e => !e.translated && reach e)).map entryDict).filter
            (fun r => acc.all (fun a => a.msgid != r.msgid))) := by
  intro es
  induction es with
  | nil =>
    intro acc
    simp [extractGo, firstWins]
  | cons e es ih =>
    intro acc
    by_cases ht : e.translated = true
    · have hL : extractGo reach (e :: es) acc = extractGo reach es acc := by
        simp [extractGo, ht]
      have hinner : List.filter (fun x => !x.translated && reach x) (e :: es)
          = List.filter (fun x => !x.translated && reach x) es := by
        simp [List.filter_cons, ht]
      rw [hL, ih, hinner]
    · have ht' : e.translated = false := by simpa using ht
      by_cases hr : reach e = true
      · have hq : (!e.translated && reach e) = true := by simp [ht', hr]
        have hinner : List.filter (fun x => !x.translated && reach x) (e :: es)
            = e :: List.filter (fun x => !x.translated && reach x) es := by
          simp only [List.filter_cons, hq, if_true]
        by_cases ha : (acc.any (fun r => r.msgid == e.msgid)) = true
        · have hL : extractGo reach (e :: es) acc = extractGo reach es acc := by
            simp [extractGo, ht', hr, ha]
          have hall : (acc.all (fun a => a.msgid != (entryDict e).msgid)) = false := by
            rw [all_bne_eq_not_any]
            simp only [entryDict]
            rw [ha]
            rfl
          rw [hL, ih, hinner]
          simp only [List.map_cons, List.filter_cons, hall, Bool.false_eq_true, if_false]
        · have ha' : (acc.any (fun r => r.msgid == e.msgid)) = false := by
            simpa using ha
          have hL : extractGo reach (e :: es) acc
              = extractGo reach es (acc ++ [entryDict e]) := by
            simp [extractGo, ht', hr, ha']
          have hall : (acc.all (fun a => a.msgid != (entryDict e).msgid)) = true := by
            rw [all_bne_eq_not_any]
            simp only [entryDict]
            rw [ha']
            rfl
          rw [hL, ih, hinner]
          simp only [List.map_cons, List.filter_cons, hall, if_true]
          rw [firstWins_cons, List.filter_filter]
          have hfe : ∀ (cand : List XRecord),
              cand.filter (fun r => (acc ++ [entryDict e]).all (fun a => a.msgid != r.msgid))
                = cand.filter (fun x => ((x.msgid != (entryDict e).msgid)
                    && (acc.all (fun a => a.msgid != x.msgid)))) := by
            intro cand
            apply List.filter_congr
            intro x _
            rw [List.all_append]
            simp only [List.all_cons, List.all_nil, Bool.and_true, entryDict]
            rw [bne_comm_str e.msgid x.msgid]
            exact Bool.and_comm _ _
          rw [hfe]
          simp [List.append_assoc]
      · have hr' : reach e = false := by simpa using hr
        have hL : extractGo reach (e :: es) acc = extractGo reach es acc := by
          simp [extractGo, ht', hr']
        have hinner : List.filter (fun x => !x.translated && reach x) (e :: es)
            = List.filter (fun x => !x.translated && reach x) es := by
          simp [List.filter_cons, hr']
        rw [hL, ih, hinner]

/-- C6: the dedup invariant.  For every catalog and every reachability
strategy, the extraction output equals the spec-side first-wins
deduplication of the qualifying (untranslated, reachable) entries in
catalog order — so the first record appended for a msgid wins, later
candidates are silently dropped, and no two output records share a msgid.
The help-text extraction loop maintains the same no-duplicate invariant. -/
theorem c6_dedup_invariant :
    (∀ (reach : Entry → Bool) (cat : List Entry),
      extractWith reach cat
        = firstWins ((cat.filter (fun e => !e.translated && reach e)).map entryDict) ∧
      ((extractWith reach cat).map XRecord.msgid).Nodup) ∧
    (∀ (w : World) (hts : List (String × String)) (cat : List Entry),
      ((helptextsExtract w hts cat).map XRecord.msgid).Nodup) := by
  have hbase : ∀ (reach : Entry → Bool) (cat : List Entry),
      extractWith reach cat
        = firstWins ((cat.filter (fun e => !e.translated && reach e)).map entryDict) := by
    intro reach cat
    rw [extractWith, extractGo_eq]
    have : ((cat.filter (fun e => !e.translated && reach e)).map entryDict).filter
        (fun r => List.all ([] : List XRecord) (fun a => a.msgid != r.msgid))
        = ((cat.filter (fun e => !e.translated && reach e)).map entryDict) := by
      apply List.filter_true
    rw [this]
    simp
  refine ⟨fun reach cat => ⟨hbase reach cat, ?_⟩, ?_⟩
  · rw [hbase]
    exact nodup_firstWins _
  · intro w hts cat
    have key : ∀ (hts : List (String × String)) (acc : List XRecord),
        (acc.map XRecord.msgid).Nodup →
        ((helptextsGo w cat hts acc).map XRecord.msgid).Nodup := by
      intro hts
      induction hts with
      | nil => intro acc h; simpa [helptextsGo] using h
      | cons p rest ih =>
        intro acc h
        obtain ⟨k, s⟩ := p
        simp only [helptextsGo]
        cases hk : resolveKey w k with
        | none => exact ih acc h
        | some o =>
          cases hf : findEntry cat s with
          | none => exact ih acc h
          | some e =>
            by_cases ht : e.translated = true
            · simp only [ht, if_true]
              exact ih acc h
            · have ht' : e.translated = false := by simpa using ht
              simp only [ht', Bool.false_eq_true, if_false]
              by_cases ha : (acc.any (fun r => r.msgid == s)) = true
              · simp only [ha, if_true]
                exact ih acc h
              · have ha' : (acc.any (fun r => r.msgid == s)) = false := by simpa using ha
                simp only [ha', Bool.false_eq_true, if_false]
                apply ih
                rw [List.map_append, List.nodup_append]
                refine ⟨h, by simp, ?_⟩
                intro a ha1 ha2
                simp only [List.map_cons, List.map_nil, List.mem_singleton] at ha2
                obtain ⟨x, hx, hxid⟩ := List.mem_map.mp ha1
                have : (x.msgid == s) = false := by
                  by_contra hc
                  have hc' : (x.msgid == s) = true := by simpa using hc
                  have : acc.any (fun r => r.msgid == s) = true :=
                    List.any_eq_true.mpr ⟨x, hx, hc'⟩
                  rw [this] at ha'
                  exact Bool.noConfusion ha'
                have hxs : x.msgid ≠ s := by simpa using this
                exact hxs (hxid.trans ha2)
    exact key hts [] (by simp)

/-! ## C7 -/

theorem mem_extractWith {reach : Entry → Bool} {cat : List Entry} {r : XRecord}
    (h : r ∈ extractWith reach cat) :
    ∃ e, e ∈ cat ∧ e.translated = false ∧ r = entryDict e := by
  rw [extractWith, extractGo_eq] at h
  simp only [List.nil_append] at h
  have h2 := mem_firstWins r _ h
  have h3 := (List.mem_filter.mp h2).1
  obtain ⟨e, he, hrd⟩ := List.mem_map.mp h3
  have hq := (List.mem_filter.mp he).2
  simp only [Bool.and_eq_true, Bool.not_eq_true'] at hq
  exact ⟨e, (List.mem_filter.mp he).1, hq.1, hrd.symm⟩

theorem mem_helptextsGo (w : World) (cat : List Entry) :
    ∀ (hts : List (String × String)) (acc : List XRecord) (r : XRecord),
    r ∈ helptextsGo w cat hts acc →
    r ∈ acc ∨ ∃ s e, findEntry cat s = some e ∧ e.translated = false ∧
      r = ⟨s, e.msgid_plural⟩ := by
  intro hts
  induction hts with
  | nil =>
    intro acc r h
    exact Or.inl (by simpa [helptextsGo] using h)
  | cons p rest ih =>
    intro acc r h
    obtain ⟨k, s⟩ := p
    simp only [helptextsGo] at h
    rcases hkk : resolveKey w k with _ | o
    · rw [hkk] at h
      exact ih acc r h
    · rw [hkk] at h
      rcases hff : findEntry cat s with _ | e
      · rw [hff] at h
        exact ih acc r h
      · rw [hff] at h
        by_cases ht : e.translated = true
        · simp only [ht, if_true] at h
          exact ih acc r h
        · have ht' : e.translated = false := by simpa using ht
          simp only [ht', Bool.false_eq_true, if_false] at h
          by_cases ha : (acc.any (fun x => x.msgid == s)) = true
          · simp only [ha, if_true] at h
            exact ih acc r h
          · have ha' : (acc.any (fun x => x.msgid == s)) = false := by simpa using ha
            simp only [ha', Bool.false_eq_true, if_false] at h
            rcases ih _ r h with hin | hex
            · rcases List.mem_append.mp hin with h1 | h1
              · exact Or.inl h1
              · right
                exact ⟨s, e, hff, ht', by simpa using h1⟩
            · exact Or.inr hex

/-- C7: a catalog entry that is already translated never appears in the
extraction output of any of the three strategies (module-path, template
source, help texts), regardless of reachability, given the catalog
invariant that msgids are unique. -/
theorem c7_translated_never_extracted (w hw : World) (modRoot : PPath)
    (hts : List (String × String)) (cat : List Entry) (e : Entry)
    (hnd : (cat.map Entry.msgid).Nodup) (he : e ∈ cat) (ht : e.translated = true) :
    e.msgid ∉ (modulesExtract w modRoot cat).map XRecord.msgid ∧
    e.msgid ∉ (htmlExtract cat).map XRecord.msgid ∧
    e.msgid ∉ (helptextsExtract hw hts cat).map XRecord.msgid := by
  have hgen : ∀ (reach : Entry → Bool),
      e.msgid ∉ (extractWith reach cat).map XRecord.msgid := by
    intro reach hmem
    obtain ⟨r, hr, hrid⟩ := List.mem_map.mp hmem
    obtain ⟨e2, he2, ht2, hre⟩ := mem_extractWith hr
    have hid : e2.msgid = e.msgid := by
      rw [hre] at hrid
      exact hrid
    have heq := List.inj_on_of_nodup_map hnd he2 he hid
    rw [heq] at ht2
    rw [ht] at ht2
    exact Bool.noConfusion ht2
  refine ⟨hgen _, hgen _, ?_⟩
  intro hmem
  obtain ⟨r, hr, hrid⟩ := List.mem_map.mp hmem
  rcases mem_helptextsGo hw cat hts [] r hr with h0 | ⟨s, e2, hfind, ht2, hre⟩
  · simp at h0
  · have hs : r.msgid = s := by rw [hre]
    have hfind' : cat.find? (fun x => x.msgid == s) = some e2 := hfind
    have h1 := List.mem_of_find?_eq_some hfind'
    have h2 : e2.msgid = s := findEntry_eq_some hfind
    have hid : e2.msgid = e.msgid := by rw [h2, ← hs, hrid]
    have heq := List.inj_on_of_nodup_map hnd h1 he hid
    rw [heq] at ht2
    rw [ht] at ht2
    exact Bool.noConfusion ht2

theorem c7_translated_never_extracted_witness :
    (([⟨"a", "", "T", [], false, [("f.html", 1)]⟩] : List Entry).map Entry.msgid).Nodup ∧
    (⟨"a", "", "T", [], false, [("f.html", 1)]⟩ : Entry)
      ∈ ([⟨"a", "", "T", [], false, [("f.html", 1)]⟩] : List Entry) ∧
    (⟨"a", "", "T", [], false, [("f.html", 1)]⟩ : Entry).translated = true ∧
    ("a" ∉ (modulesExtract ⟨[], [], []⟩ ⟨true, ["root"]⟩
        [⟨"a", "", "T", [], false, [("f.html", 1)]⟩]).map XRecord.msgid ∧
      "a" ∉ (htmlExtract [⟨"a", "", "T", [], false, [("f.html", 1)]⟩]).map XRecord.msgid ∧
      "a" ∉ (helptextsExtract ⟨[], [("k", 1)], []⟩ [("k", "a")]
        [⟨"a", "", "T", [], false, [("f.html", 1)]⟩]).map XRecord.msgid) :=
  ⟨by decide, by decide, by decide,
    c7_translated_never_extracted ⟨[], [], []⟩ ⟨[], [("k", 1)], []⟩ ⟨true, ["root"]⟩
      [("k", "a")] [⟨"a", "", "T", [], false, [("f.html", 1)]⟩]
      ⟨"a", "", "T", [], false, [("f.html", 1)]⟩ (by decide) (by decide) (by decide)⟩

/-! ## C8 -/

/-- C8: under module-path reachability, an occurrence whose resolved file
does not exist never contributes: the per-occurrence check is false (no
exception is possible in this total model), removing the occurrence from
the list does not change reachability, a later succeeding occurrence still
makes the entry reachable, and reachability is decided at the first
succeeding occurrence irrespective of anything after it. -/
theorem c8_missing_file_skipped (w : World) (modRoot : PPath)
    (occ o : String × Nat) (pre post rest : List (String × Nat))
    (h : pathExists w (occResolved modRoot occ) = false)
    (ho : occImported w modRoot o = true) :
    occImported w modRoot occ = false ∧
    moduleReach w modRoot (pre ++ occ :: post) = moduleReach w modRoot (pre ++ post) ∧
    moduleReach w modRoot (occ :: rest ++ [o]) = true ∧
    moduleReach w modRoot (o :: rest) = true := by
  have h1 : occImported w modRoot occ = false := by
    simp [occImported, h]
  refine ⟨h1, ?_, ?_, ?_⟩
  · simp [moduleReach, List.any_append, List.any_cons, h1]
  · simp [moduleReach, List.any_append, List.any_cons, h1, ho]
  · simp [moduleReach, List.any_cons, ho]

theorem c8_missing_file_skipped_witness :
    pathExists ⟨[⟨true, ["root", "pkg", "sub", "mod.py"]⟩], [("pkg.sub.mod", 7)], []⟩
      (occResolved ⟨true, ["root"]⟩ ("missing/file.py", 3)) = false ∧
    occImported ⟨[⟨true, ["root", "pkg", "sub", "mod.py"]⟩], [("pkg.sub.mod", 7)], []⟩
      ⟨true, ["root"]⟩ ("pkg/sub/mod.py", 10) = true ∧
    (occImported ⟨[⟨true, ["root", "pkg", "sub", "mod.py"]⟩], [("pkg.sub.mod", 7)], []⟩
        ⟨true, ["root"]⟩ ("missing/file.py", 3) = false ∧
      moduleReach ⟨[⟨true, ["root", "pkg", "sub", "mod.py"]⟩], [("pkg.sub.mod", 7)], []⟩
          ⟨true, ["root"]⟩ ([] ++ ("missing/file.py", 3) :: [])
        = moduleReach ⟨[⟨true, ["root", "pkg", "sub", "mod.py"]⟩], [("pkg.sub.mod", 7)], []⟩
          ⟨true, ["root"]⟩ ([] ++ []) ∧
      moduleReach ⟨[⟨true, ["root", "pkg", "sub", "mod.py"]⟩], [("pkg.sub.mod", 7)], []⟩
          ⟨true, ["root"]⟩ (("missing/file.py", 3) :: [] ++ [("pkg/sub/mod.py", 10)]) = true ∧
      moduleReach ⟨[⟨true, ["root", "pkg", "sub", "mod.py"]⟩], [("pkg.sub.mod", 7)], []⟩
          ⟨true, ["root"]⟩ (("pkg/sub/mod.py", 10) :: []) = true) :=
  ⟨by decide, by decide,
    c8_missing_file_skipped ⟨[⟨true, ["root", "pkg", "sub", "mod.py"]⟩], [("pkg.sub.mod", 7)], []⟩
      ⟨true, ["root"]⟩ ("missing/file.py", 3) ("pkg/sub/mod.py", 10) [] [] []
      (by decide) (by decide)⟩

/-! ## C9 -/

theorem snoc_inj {α : Type} {ps qs : List α} {p q : α} (h : ps ++ [p] = qs ++ [q]) :
    ps = qs ∧ p = q := by
  have h1 := congrArg List.reverse h
  simp only [List.reverse_append, List.reverse_cons, List.reverse_nil, List.nil_append,
    List.cons_append] at h1
  obtain ⟨hpq, hr⟩ := List.cons.inj h1
  exact ⟨List.reverse_injective hr, hpq⟩

theorem prefixRes_ne_nil {w : World} {l : List String} {o : Nat}
    (h : PrefixRes w l o) : l ≠ [] := by
  cases h with
  | direct_first p o h1 => simp
  | direct_step ps p o o' hp h1 => simp
  | attr_step ps p o o' hp hd h1 => simp

theorem prefixRes_snoc {w : World} {l : List String} {o : Nat}
    (h : PrefixRes w l o) :
    ∀ {ps : List String} {p : String}, l = ps ++ [p] →
    (ps = [] ∧ lookupMod w (dotJoin [p]) = some o) ∨
    (∃ o', PrefixRes w ps o' ∧ lookupMod w (dotJoin (ps ++ [p])) = some o) ∨
    (∃ o', PrefixRes w ps o' ∧ lookupMod w (dotJoin (ps ++ [p])) = none ∧
      getattrW w o' p = some o) := by
  cases h with
  | direct_first p1 o1 h1 =>
    intro ps p hl
    obtain ⟨hps, hpp⟩ := snoc_inj (show ([] : List String) ++ [p1] = ps ++ [p] from hl)
    subst hpp
    left
    exact ⟨hps.symm, h1⟩
  | direct_step ps1 p1 o1 o' hp h1 =>
    intro ps p hl
    obtain ⟨hps, hpp⟩ := snoc_inj hl
    subst hps
    subst hpp
    right; left
    exact ⟨o', hp, h1⟩
  | attr_step ps1 p1 o1 o' hp hd h1 =>
    intro ps p hl
    obtain ⟨hps, hpp⟩ := snoc_inj hl
    subst hps
    subst hpp
    right; right
    exact ⟨o', hp, hd, h1⟩

theorem prefixRes_det {w : World} : ∀ {l : List String} {o1 o2 : Nat},
    PrefixRes w l o1 → PrefixRes w l o2 → o1 = o2 := by
  intro l o1 o2 h1
  induction h1 generalizing o2 with
  | direct_first p oa h =>
    intro h2
    rcases prefixRes_snoc h2 (show [p] = ([] : List String) ++ [p] from rfl) with
      ⟨_, hlk⟩ | ⟨o', hp, hlk⟩ | ⟨o', hp, hlk, hat⟩
    · rw [h] at hlk
      exact (Option.some.inj hlk)
    · exact absurd rfl (prefixRes_ne_nil hp)
    · exact absurd rfl (prefixRes_ne_nil hp)
  | direct_step ps p oa o' hp h ih =>
    intro h2
    rcases prefixRes_snoc h2 rfl with
      ⟨hnil, hlk⟩ | ⟨o3, hp3, hlk⟩ | ⟨o3, hp3, hlk, hat⟩
    · subst hnil
      have h' : lookupMod w (dotJoin [p]) = some oa := h
      rw [h'] at hlk
      exact (Option.some.inj hlk)
    · rw [h] at hlk
      exact (Option.some.inj hlk)
    · rw [h] at hlk
      exact Option.noConfusion hlk
  | attr_step ps p oa o' hp hd h ih =>
    intro h2
    rcases prefixRes_snoc h2 rfl with
      ⟨hnil, hlk⟩ | ⟨o3, hp3, hlk⟩ | ⟨o3, hp3, hlk, hat⟩
    · subst hnil
      have hd' : lookupMod w (dotJoin [p]) = none := hd
      rw [hd'] at hlk
      exact Option.noConfusion hlk
    · rw [hd] at hlk
      exact Option.noConfusion hlk
    · have ho3 : o' = o3 := ih hp3
      rw [← ho3] at hat
      rw [h] at hat
      exact (Option.some.inj hat)

theorem prefixRes_of_append {w : World} :
    ∀ (l2 l1 : List String) {o : Nat}, PrefixRes w (l1 ++ l2) o → l1 ≠ [] →
    ∃ o', PrefixRes w l1 o' := by
  intro l2
  induction l2 using List.reverseRecOn with
  | nil =>
    intro l1 o h hne
    exact ⟨o, by simpa using h⟩
  | append_singleton l2' x ih =>
    intro l1 o h hne
    have h' : PrefixRes w ((l1 ++ l2') ++ [x]) o := by
      simpa [List.append_assoc] using h
    rcases prefixRes_snoc h' rfl with ⟨hnil, _⟩ | ⟨o', hp, _⟩ | ⟨o', hp, _, _⟩
    · exact absurd (List.append_eq_nil.mp hnil).1 hne
    · exact ih l1 hp hne
    · exact ih l1 hp hne

theorem walkParts_iff {w : World} :
    ∀ (rest prev : List String) (obj : Option Nat),
    ((prev = [] ∧ obj = none) ∨ (∃ o', obj = some o' ∧ PrefixRes w prev o')) →
    ∀ o, walkParts w rest prev obj = some o ↔ PrefixRes w (prev ++ rest) o := by
  intro rest
  induction rest with
  | nil =>
    intro prev obj hinv o
    simp only [walkParts, List.append_nil]
    rcases hinv with ⟨hp, ho⟩ | ⟨o', ho, hpr⟩
    · subst hp
      subst ho
      constructor
      · intro h
        exact Option.noConfusion h
      · intro h
        exact absurd rfl (prefixRes_ne_nil h)
    · subst ho
      constructor
      · intro h
        have := Option.some.inj h
        subst this
        exact hpr
      · intro h
        rw [prefixRes_det hpr h]
  | cons p rest ih =>
    intro prev obj hinv o
    cases hl : lookupMod w (dotJoin (prev ++ [p])) with
    | some o1 =>
      have hpr1 : PrefixRes w (prev ++ [p]) o1 := by
        rcases hinv with ⟨hp, ho⟩ | ⟨o', ho, hpr⟩
        · subst hp
          exact PrefixRes.direct_first p o1 hl
        · exact PrefixRes.direct_step prev p o1 o' hpr hl
      have hinv' : ((prev ++ [p] = [] ∧ (some o1 : Option Nat) = none) ∨
          (∃ o', (some o1 : Option Nat) = some o' ∧ PrefixRes w (prev ++ [p]) o')) :=
        Or.inr ⟨o1, rfl, hpr1⟩
      have hw : walkParts w (p :: rest) prev obj
          = walkParts w rest (prev ++ [p]) (some o1) := by
        simp only [walkParts, hl]
      rw [hw, ih (prev ++ [p]) (some o1) hinv' o, List.append_assoc]
      rfl
    | none =>
      rcases hinv with ⟨hp, ho⟩ | ⟨o', ho, hpr⟩
      · subst hp
        subst ho
        have hw : walkParts w (p :: rest) [] none = none := by
          simp only [walkParts, hl]
        rw [hw]
        constructor
        · intro h
          exact Option.noConfusion h
        · intro h
          exfalso
          have h1 : PrefixRes w ([p] ++ rest) o := by simpa using h
          obtain ⟨o1, ho1⟩ := prefixRes_of_append rest [p] h1 (by simp)
          rcases prefixRes_snoc ho1 (show [p] = ([] : List String) ++ [p] from rfl) with
            ⟨_, hlk⟩ | ⟨o3, hp3, _⟩ | ⟨o3, hp3, _, _⟩
          · have hl' : lookupMod w (dotJoin [p]) = none := hl
            rw [hl'] at hlk
            exact Option.noConfusion hlk
          · exact absurd rfl (prefixRes_ne_nil hp3)
          · exact absurd rfl (prefixRes_ne_nil hp3)
      · subst ho
        cases hg : getattrW w o' p with
        | some o2 =>
          have hpr2 : PrefixRes w (prev ++ [p]) o2 :=
            PrefixRes.attr_step prev p o2 o' hpr hl hg
          have hinv' : ((prev ++ [p] = [] ∧ (some o2 : Option Nat) = none) ∨
              (∃ x, (some o2 : Option Nat) = some x ∧ PrefixRes w (prev ++ [p]) x)) :=
            Or.inr ⟨o2, rfl, hpr2⟩
          have hw : walkParts w (p :: rest) prev (some o')
              = walkParts w rest (prev ++ [p]) (some o2) := by
            simp only [walkParts, hl, hg]
          rw [hw, ih (prev ++ [p]) (some o2) hinv' o, List.append_assoc]
          rfl
        | none =>
          have hw : walkParts w (p :: rest) prev (some o') = none := by
            simp only [walkParts, hl, hg]
          rw [hw]
          constructor
          · intro h
            exact Option.noConfusion h
          · intro h
            exfalso
            have h1 : PrefixRes w ((prev ++ [p]) ++ rest) o := by
              simpa [List.append_assoc] using h
            obtain ⟨o1, ho1⟩ := prefixRes_of_append rest (prev ++ [p]) h1 (by simp)
            rcases prefixRes_snoc ho1 rfl with
              ⟨hnil, hlk⟩ | ⟨o3, hp3, hlk⟩ | ⟨o3, hp3, hlk, hat⟩
            · subst hnil
              have hl' : lookupMod w (dotJoin [p]) = none := hl
              rw [hl'] at hlk
              exact Option.noConfusion hlk
            · rw [hl] at hlk
              exact Option.noConfusion hlk
            · have ho3 : o3 = o' := prefixRes_det hp3 hpr
              rw [ho3, hg] at hat
              exact Option.noConfusion hat

/-- C9: the dotted-symbol walk of helptexts.py resolves a key to an object
iff the key's segments admit the spec-side resolution chain: at each
prefix, direct resolution of the entire dotted prefix against the loaded
modules is tried first and replaces the current object; otherwise the new
segment is looked up as an attribute of the previously resolved object;
resolution fails as soon as a segment can be found neither way. -/
theorem c9_dotted_walk_characterisation (w : World) (k : String) (o : Nat) :
    resolveKey w k = some o ↔ PrefixRes w (splitDots k) o := by
  have h := walkParts_iff (w := w) (splitDots k) [] none (Or.inl ⟨rfl, rfl⟩) o
  simpa [resolveKey] using h

/-! ## C4 -/

theorem updateFirst_get?_ne (m : String) (g : Entry → Entry) :
    ∀ (cat : List Entry) (i : Nat) (e : Entry), cat.get? i = some e → e.msgid ≠ m →
    (updateFirst cat m g).get? i = some e := by
  intro cat
  induction cat with
  | nil => intro i e h hne; simp at h
  | cons x xs ih =>
    intro i e h hne
    cases hx : (x.msgid == m) with
    | true =>
      simp only [updateFirst, hx, if_true]
      cases i with
      | zero =>
        have hxe := Option.some.inj h
        subst hxe
        exact absurd (beq_iff_eq.mp hx) hne
      | succ n => simpa using h
    | false =>
      simp only [updateFirst, hx, Bool.false_eq_true, if_false]
      cases i with
      | zero => simpa using h
      | succ n => exact ih n e (by simpa using h) hne

theorem updateFirst_get?_shape (m : String) (g : Entry → Entry) :
    ∀ (cat : List Entry) (i : Nat) (e : Entry), cat.get? i = some e →
    (updateFirst cat m g).get? i = some e ∨ (updateFirst cat m g).get? i = some (g e) := by
  intro cat
  induction cat with
  | nil => intro i e h; simp at h
  | cons x xs ih =>
    intro i e h
    cases hx : (x.msgid == m) with
    | true =>
      simp only [updateFirst, hx, if_true]
      cases i with
      | zero =>
        have hxe := Option.some.inj h
        subst hxe
        right
        rfl
      | succ n =>
        left
        simpa using h
    | false =>
      simp only [updateFirst, hx, Bool.false_eq_true, if_false]
      cases i with
      | zero =>
        left
        simpa using h
      | succ n => exact ih n e (by simpa using h)

theorem updateFirst_map_msgid (m : String) (g : Entry → Entry)
    (hg : ∀ x, (g x).msgid = x.msgid) :
    ∀ (cat : List Entry),
    (updateFirst cat m g).map Entry.msgid = cat.map Entry.msgid := by
  intro cat
  induction cat with
  | nil => rfl
  | cons x xs ih =>
    cases hx : (x.msgid == m) with
    | true => simp [updateFirst, hx, hg]
    | false => simp [updateFirst, hx, ih]

theorem findEntry_updateFirst_ne (m' : String) (g : Entry → Entry) (m : String)
    (hne : m' ≠ m) (hg : ∀ x, (g x).msgid = x.msgid) :
    ∀ (cat : List Entry), findEntry (updateFirst cat m' g) m = findEntry cat m := by
  intro cat
  induction cat with
  | nil => rfl
  | cons x xs ih =>
    cases hx : (x.msgid == m') with
    | true =>
      have hxm : (x.msgid == m) = false := by
        have hx' : x.msgid = m' := beq_iff_eq.mp hx
        exact beq_eq_false_iff_ne.mpr (by rw [hx']; exact hne)
      have hgm : ((g x).msgid == m) = false := by
        rw [hg]
        exact hxm
      simp only [updateFirst, hx, if_true, findEntry, List.find?, hgm, hxm]
    | false =>
      cases hxm : (x.msgid == m) with
      | true =>
        simp [updateFirst, hx, findEntry, List.find?, hxm]
      | false =>
        simp only [updateFirst, hx, Bool.false_eq_true, if_false, findEntry,
          List.find?, hxm]
        exact ih

theorem mergeStep_fst (cat : List Entry) (r : String × TransValue) :
    (mergeStep cat r).1 = cat ∨
    ∃ g : Entry → Entry,
      (∀ x, (g x).msgid = x.msgid ∧ (g x).msgid_plural = x.msgid_plural ∧
        (g x).occurrences = x.occurrences) ∧
      (mergeStep cat r).1 = updateFirst cat r.1 g := by
  obtain ⟨m, v⟩ := r
  rcases v with s | mv | _ <;> simp only [mergeStep] <;> (repeat' split) <;>
    first
      | exact Or.inl trivial
      | exact Or.inl rfl
      | exact Or.inr ⟨fun x => updSingular x _, fun x => ⟨rfl, rfl, rfl⟩, rfl⟩
      | exact Or.inr ⟨fun x => updPlural x _, fun x => ⟨rfl, rfl, rfl⟩, rfl⟩

theorem mergeAll_get?_of_not_mem :
    ∀ (rs : List (String × TransValue)) (cat : List Entry) (i : Nat) (e : Entry),
    cat.get? i = some e → (∀ p ∈ rs, p.1 ≠ e.msgid) →
    (mergeAll rs cat).1.get? i = some e := by
  intro rs
  induction rs with
  | nil => intro cat i e h _; simpa [mergeAll] using h
  | cons r rs ih =>
    intro cat i e h hne
    have hstep : (mergeStep cat r).1.get? i = some e := by
      rcases mergeStep_fst cat r with hc | ⟨g, hg, hc⟩
      · rw [hc]; exact h
      · rw [hc]
        exact updateFirst_get?_ne r.1 g cat i e h
          (fun hEq => hne r (List.mem_cons_self _ _) hEq.symm)
    have : (mergeAll (r :: rs) cat).1 = (mergeAll rs (mergeStep cat r).1).1 := by
      rw [mergeAll_cons]
    rw [this]
    exact ih (mergeStep cat r).1 i e hstep (fun p hp => hne p (List.mem_cons_of_mem _ hp))

theorem mergeAll_get?_shape :
    ∀ (rs : List (String × TransValue)) (cat : List Entry) (i : Nat) (e : Entry),
    cat.get? i = some e →
    ∃ e', (mergeAll rs cat).1.get? i = some e' ∧ e'.msgid = e.msgid ∧
      e'.msgid_plural = e.msgid_plural ∧ e'.occurrences = e.occurrences := by
  intro rs
  induction rs with
  | nil =>
    intro cat i e h
    exact ⟨e, by simpa [mergeAll] using h, rfl, rfl, rfl⟩
  | cons r rs ih =>
    intro cat i e h
    have hstep : ∃ e1, (mergeStep cat r).1.get? i = some e1 ∧ e1.msgid = e.msgid ∧
        e1.msgid_plural = e.msgid_plural ∧ e1.occurrences = e.occurrences := by
      rcases mergeStep_fst cat r with hc | ⟨g, hg, hc⟩
      · exact ⟨e, by rw [hc]; exact h, rfl, rfl, rfl⟩
      · rcases updateFirst_get?_shape r.1 g cat i e h with h1 | h1
        · exact ⟨e, by rw [hc]; exact h1, rfl, rfl, rfl⟩
        · exact ⟨g e, by rw [hc]; exact h1, (hg e).1, (hg e).2.1, (hg e).2.2⟩
    obtain ⟨e1, he1, hid, hpl, hocc⟩ := hstep
    have hall : (mergeAll (r :: rs) cat).1 = (mergeAll rs (mergeStep cat r).1).1 := by
      rw [mergeAll_cons]
    obtain ⟨e', he', hid', hpl', hocc'⟩ := ih (mergeStep cat r).1 i e1 he1
    exact ⟨e', by rw [hall]; exact he', hid'.trans hid, hpl'.trans hpl, hocc'.trans hocc⟩

theorem mergeAll_map_msgid :
    ∀ (rs : List (String × TransValue)) (cat : List Entry),
    (mergeAll rs cat).1.map Entry.msgid = cat.map Entry.msgid := by
  intro rs
  induction rs with
  | nil => intro cat; simp [mergeAll]
  | cons r rs ih =>
    intro cat
    have hall : (mergeAll (r :: rs) cat).1 = (mergeAll rs (mergeStep cat r).1).1 := by
      rw [mergeAll_cons]
    rw [hall, ih]
    rcases mergeStep_fst cat r with hc | ⟨g, hg, hc⟩
    · rw [hc]
    · rw [hc]
      exact updateFirst_map_msgid r.1 g (fun x => (hg x).1) cat

theorem mergeAll_findEntry_ne :
    ∀ (rs : List (String × TransValue)) (cat : List Entry) (m : String),
    (∀ p ∈ rs, p.1 ≠ m) →
    findEntry (mergeAll rs cat).1 m = findEntry cat m := by
  intro rs
  induction rs with
  | nil => intro cat m _; simp [mergeAll]
  | cons r rs ih =>
    intro cat m hne
    have hall : (mergeAll (r :: rs) cat).1 = (mergeAll rs (mergeStep cat r).1).1 := by
      rw [mergeAll_cons]
    rw [hall, ih (mergeStep cat r).1 m (fun p hp => hne p (List.mem_cons_of_mem _ hp))]
    rcases mergeStep_fst cat r with hc | ⟨g, hg, hc⟩
    · rw [hc]
    · rw [hc]
      exact findEntry_updateFirst_ne r.1 g m (hne r (List.mem_cons_self _ _))
        (fun x => (hg x).1) cat

theorem findEntry_of_mem_nodup :
    ∀ (cat : List Entry), (cat.map Entry.msgid).Nodup →
    ∀ e ∈ cat, findEntry cat e.msgid = some e := by
  intro cat
  induction cat with
  | nil => intro _ e he; simp at he
  | cons x xs ih =>
    intro hnd e he
    simp only [List.map_cons, List.nodup_cons] at hnd
    rcases List.mem_cons.mp he with rfl | hmem
    · simp [findEntry, List.find?]
    · have hxne : (x.msgid == e.msgid) = false := by
        apply beq_eq_false_iff_ne.mpr
        intro hEq
        exact hnd.1 (hEq ▸ List.mem_map_of_mem Entry.msgid hmem)
      simp only [findEntry, List.find?, hxne]
      exact ih hnd.2 e hmem

theorem findEntry_isSome_of_mem_msgid :
    ∀ (cat : List Entry) (m : String), m ∈ cat.map Entry.msgid →
    ∃ e, findEntry cat m = some e := by
  intro cat
  induction cat with
  | nil => intro m h; simp at h
  | cons x xs ih =>
    intro m h
    cases hx : (x.msgid == m) with
    | true => exact ⟨x, by simp [findEntry, List.find?, hx]⟩
    | false =>
      simp only [List.map_cons] at h
      have hm : m ∈ xs.map Entry.msgid := by
        rcases List.mem_cons.mp h with h1 | h1
        · exact absurd (beq_iff_eq.mpr h1.symm) (by simp [hx])
        · exact h1
      obtain ⟨e, he⟩ := ih m hm
      refine ⟨e, ?_⟩
      simp only [findEntry, List.find?, hx]
      exact he

theorem mergeStep_legacy_msgstr (cat : List Entry) (m s : String) (e : Entry)
    (hb : pyBlank s = false) (hf : findEntry cat m = some e) :
    ∃ e2, findEntry (mergeStep cat (m, TransValue.legacy s)).1 m = some e2 ∧
      e2.msgstr = s := by
  simp only [mergeStep, hb, Bool.false_eq_true, if_false, hf]
  cases hc : (e.msgstr == "" || e.msgstr != s) with
  | true =>
    simp only [hc, if_true]
    refine ⟨updSingular e s, ?_, rfl⟩
    rw [findEntry_updateFirst cat m (fun x => updSingular x s) (fun x => rfl), hf]
    rfl
  | false =>
    simp only [hc, Bool.false_eq_true, if_false]
    refine ⟨e, hf, ?_⟩
    have h2 : (e.msgstr != s) = false := by
      rcases Bool.or_eq_false_iff.mp hc with ⟨_, h2⟩
      exact h2
    simpa using h2

theorem mergeAll_legacy_translates :
    ∀ (rs : List (String × TransValue)) (cat : List Entry),
    (cat.map Entry.msgid).Nodup →
    ((rs.map Prod.fst).Nodup) →
    (∀ p ∈ rs, ∃ s, p.2 = TransValue.legacy s ∧ pyBlank s = false) →
    (∀ p ∈ rs, p.1 ∈ cat.map Entry.msgid) →
    ∀ p ∈ rs, ∃ e', findEntry (mergeAll rs cat).1 p.1 = some e' ∧ e'.msgstr ≠ "" := by
  intro rs
  induction rs with
  | nil => intro cat _ _ _ _ p hp; simp at hp
  | cons r rs ih =>
    intro cat hnd hrnd hshape hmem p hp
    obtain ⟨m, v⟩ := r
    obtain ⟨s, hv, hb⟩ := hshape (m, v) (List.mem_cons_self _ _)
    have hv' : v = TransValue.legacy s := hv
    subst hv'
    have hall : (mergeAll ((m, TransValue.legacy s) :: rs) cat).1
        = (mergeAll rs (mergeStep cat (m, TransValue.legacy s)).1).1 := by
      rw [mergeAll_cons]
    obtain ⟨e0, hf0⟩ := findEntry_isSome_of_mem_msgid cat m
      (hmem (m, TransValue.legacy s) (List.mem_cons_self _ _))
    obtain ⟨e2, hf2, hs2⟩ := mergeStep_legacy_msgstr cat m s e0 hb hf0
    have hmap1 : (mergeStep cat (m, TransValue.legacy s)).1.map Entry.msgid
        = cat.map Entry.msgid := by
      rcases mergeStep_fst cat (m, TransValue.legacy s) with hc | ⟨g, hg, hc⟩
      · rw [hc]
      · rw [hc]
        exact updateFirst_map_msgid _ g (fun x => (hg x).1) cat
    have hnd1 : ((mergeStep cat (m, TransValue.legacy s)).1.map Entry.msgid).Nodup := by
      rw [hmap1]
      exact hnd
    have hrnd2 : (rs.map Prod.fst).Nodup := by
      simp only [List.map_cons, List.nodup_cons] at hrnd
      exact hrnd.2
    rcases List.mem_cons.mp hp with rfl | hptail
    · have hne : ∀ q ∈ rs, q.1 ≠ m := by
        simp only [List.map_cons, List.nodup_cons] at hrnd
        intro q hq hEq
        exact hrnd.1 (hEq ▸ List.mem_map_of_mem Prod.fst hq)
      refine ⟨e2, ?_, ?_⟩
      · rw [hall, mergeAll_findEntry_ne rs _ m hne]
        exact hf2
      · rw [hs2]
        exact pyBlank_ne_empty hb
    · have hshape' : ∀ q ∈ rs, ∃ s', q.2 = TransValue.legacy s' ∧ pyBlank s' = false :=
        fun q hq => hshape q (List.mem_cons_of_mem _ hq)
      have hmem' : ∀ q ∈ rs, q.1 ∈ (mergeStep cat (m, TransValue.legacy s)).1.map Entry.msgid := by
        rw [hmap1]
        exact fun q hq => hmem q (List.mem_cons_of_mem _ hq)
      have hres := ih (mergeStep cat (m, TransValue.legacy s)).1 hnd1 hrnd2 hshape' hmem' p hptail
      rw [hall]
      exact hres

theorem extractGo_acc_sub (reach : Entry → Bool) :
    ∀ (es : List Entry) (acc : List XRecord) (r : XRecord),
    r ∈ acc → r ∈ extractGo reach es acc := by
  intro es
  induction es with
  | nil => intro acc r h; simpa [extractGo] using h
  | cons e es ih =>
    intro acc r h
    by_cases ht : e.translated = true
    · simp only [extractGo, ht, if_true]
      exact ih acc r h
    · have ht' : e.translated = false := by simpa using ht
      by_cases hr : reach e = true
      · simp only [extractGo, ht', Bool.false_eq_true, if_false, hr, if_true]
        by_cases ha : (acc.any (fun x => x.msgid == e.msgid)) = true
        · simp only [ha, if_true]
          exact ih acc r h
        · have ha' : (acc.any (fun x => x.msgid == e.msgid)) = false := by simpa using ha
          simp only [ha', Bool.false_eq_true, if_false]
          exact ih _ r (List.mem_append_left _ h)
      · have hr' : reach e = false := by simpa using hr
        simp only [extractGo, ht', Bool.false_eq_true, if_false, hr']
        exact ih acc r h

theorem extractGo_msgid_mem (reach : Entry → Bool) :
    ∀ (es : List Entry) (acc : List XRecord) (e : Entry),
    e ∈ es → e.translated = false → reach e = true →
    e.msgid ∈ (extractGo reach es acc).map XRecord.msgid := by
  intro es
  induction es with
  | nil => intro acc e h; simp at h
  | cons x xs ih =>
    intro acc e he ht hr
    rcases List.mem_cons.mp he with rfl | hmem
    · simp only [extractGo, ht, Bool.false_eq_true, if_false, hr, if_true]
      by_cases ha : (acc.any (fun r => r.msgid == e.msgid)) = true
      · simp only [ha, if_true]
        obtain ⟨a, haa, hid⟩ := List.any_eq_true.mp ha
        have hmem2 : a ∈ extractGo reach xs acc := extractGo_acc_sub reach xs acc a haa
        exact (beq_iff_eq.mp hid) ▸ List.mem_map_of_mem XRecord.msgid hmem2
      · have ha' : (acc.any (fun r => r.msgid == e.msgid)) = false := by simpa using ha
        simp only [ha', Bool.false_eq_true, if_false]
        have hd : entryDict e ∈ extractGo reach xs (acc ++ [entryDict e]) :=
          extractGo_acc_sub reach xs _ _ (by simp)
        exact List.mem_map_of_mem XRecord.msgid hd
    · by_cases hxt : x.translated = true
      · simp only [extractGo, hxt, if_true]
        exact ih acc e hmem ht hr
      · have hxt' : x.translated = false := by simpa using hxt
        by_cases hxr : reach x = true
        · simp only [extractGo, hxt', Bool.false_eq_true, if_false, hxr, if_true]
          by_cases ha : (acc.any (fun r => r.msgid == x.msgid)) = true
          · simp only [ha, if_true]
            exact ih acc e hmem ht hr
          · have ha' : (acc.any (fun r => r.msgid == x.msgid)) = false := by simpa using ha
            simp only [ha', Bool.false_eq_true, if_false]
            exact ih _ e hmem ht hr
        · have hxr' : reach x = false := by simpa using hxr
          simp only [extractGo, hxt', Bool.false_eq_true, if_false, hxr']
          exact ih acc e hmem ht hr

theorem extractGo_skip_all (reach : Entry → Bool) :
    ∀ (es : List Entry) (acc : List XRecord),
    (∀ e ∈ es, e.translated = true ∨ reach e = false) →
    extractGo reach es acc = acc := by
  intro es
  induction es with
  | nil => intro acc _; rfl
  | cons x xs ih =>
    intro acc h
    rcases h x (List.mem_cons_self _ _) with ht | hr
    · simp only [extractGo, ht, if_true]
      exact ih acc (fun e he => h e (List.mem_cons_of_mem _ he))
    · by_cases hxt : x.translated = true
      · simp only [extractGo, hxt, if_true]
        exact ih acc (fun e he => h e (List.mem_cons_of_mem _ he))
      · have hxt' : x.translated = false := by simpa using hxt
        simp only [extractGo, hxt', Bool.false_eq_true, if_false, hr]
        exact ih acc (fun e he => h e (List.mem_cons_of_mem _ he))

theorem translated_of_msgstr {e : Entry} (h : e.msgstr ≠ "") : e.translated = true := by
  simp [Entry.translated, h]

theorem nodup_extractWith (reach : Entry → Bool) (cat : List Entry) :
    ((extractWith reach cat).map XRecord.msgid).Nodup := by
  rw [extractWith, extractGo_eq]
  have h0 : ((cat.filter (fun e => !e.translated && reach e)).map entryDict).filter
      (fun r => List.all ([] : List XRecord) (fun a => a.msgid != r.msgid))
      = ((cat.filter (fun e => !e.translated && reach e)).map entryDict) :=
    List.filter_true _
  rw [h0]
  simpa using nodup_firstWins _

/-- C4 counterexample: the string " " is non-empty, yet constructing the
translation record from it and merging it back is counted as a skip by
the blank check, so the entry stays untranslated and re-extraction is
not empty — the round-trip property fails for a record set built from
non-empty (but whitespace-only) strings. -/
theorem c4_round_trip_cx :
    (" " : String) ≠ "" ∧
    extractWith (fun e => (fun _ => true) e.occurrences) [⟨"a", "", "", [], false, []⟩]
      = [⟨"a", ""⟩] ∧
    extractWith (fun e => (fun _ => true) e.occurrences)
      (mergeAll ((extractWith (fun e => (fun _ => true) e.occurrences)
            [⟨"a", "", "", [], false, []⟩]).map
          (fun r => (r.msgid, TransValue.legacy " ")))
        [⟨"a", "", "", [], false, []⟩]).1 ≠ [] := by
  refine ⟨by decide, by decide, by decide⟩

/-- C4 (amended): round-trip with effective translation strings.  For a
catalog with unique msgids and any occurrence-based reachability
strategy, extract the untranslated reachable entries and construct for
every extracted msgid a legacy translation record whose string is
non-blank (non-empty after stripping whitespace, not merely non-empty);
merging them back and re-extracting yields the empty result set, and
every previously extracted msgid names a translated entry after the
merge. -/
theorem c4_round_trip (ro : List (String × Nat) → Bool) (cat : List Entry)
    (f : String → String)
    (hnd : (cat.map Entry.msgid).Nodup)
    (hf : ∀ r ∈ extractWith (fun e => ro e.occurrences) cat,
      pyBlank (f r.msgid) = false) :
    extractWith (fun e => ro e.occurrences)
      (mergeAll ((extractWith (fun e => ro e.occurrences) cat).map
          (fun r => (r.msgid, TransValue.legacy (f r.msgid)))) cat).1 = [] ∧
    (∀ r ∈ extractWith (fun e => ro e.occurrences) cat,
      ∃ e', findEntry (mergeAll ((extractWith (fun e => ro e.occurrences) cat).map
            (fun r => (r.msgid, TransValue.legacy (f r.msgid)))) cat).1 r.msgid
          = some e' ∧ e'.translated = true) := by
  set X := extractWith (fun e => ro e.occurrences) cat with hX
  set rs := X.map (fun r => (r.msgid, TransValue.legacy (f r.msgid))) with hrs
  have hrsfst : rs.map Prod.fst = X.map XRecord.msgid := by
    rw [hrs, List.map_map]
    rfl
  have h2 : (rs.map Prod.fst).Nodup := by
    rw [hrsfst, hX]
    exact nodup_extractWith _ cat
  have h3 : ∀ p ∈ rs, ∃ s, p.2 = TransValue.legacy s ∧ pyBlank s = false := by
    intro p hp
    rw [hrs] at hp
    obtain ⟨r, hr, rfl⟩ := List.mem_map.mp hp
    exact ⟨f r.msgid, rfl, hf r hr⟩
  have h4 : ∀ p ∈ rs, p.1 ∈ cat.map Entry.msgid := by
    intro p hp
    rw [hrs] at hp
    obtain ⟨r, hr, rfl⟩ := List.mem_map.mp hp
    obtain ⟨e, he, _, hre⟩ := mem_extractWith (hX ▸ hr)
    have : r.msgid = e.msgid := by rw [hre]; rfl
    rw [this]
    exact List.mem_map_of_mem Entry.msgid he
  have hkey := mergeAll_legacy_translates rs cat hnd h2 h3 h4
  have hsecond : ∀ r ∈ X,
      ∃ e', findEntry (mergeAll rs cat).1 r.msgid = some e' ∧ e'.translated = true := by
    intro r hr
    have hpin : (r.msgid, TransValue.legacy (f r.msgid)) ∈ rs := by
      rw [hrs]
      exact List.mem_map_of_mem _ hr
    obtain ⟨e', he', hms⟩ := hkey _ hpin
    exact ⟨e', he', translated_of_msgstr hms⟩
  refine ⟨?_, hsecond⟩
  have hnil : ∀ e' ∈ (mergeAll rs cat).1,
      e'.translated = true ∨ (fun e => ro e.occurrences) e' = false := by
    intro e' he'
    obtain ⟨i, hi⟩ := List.mem_iff_get?.mp he'
    have hlen : (mergeAll rs cat).1.length = cat.length := by
      have hc := congrArg List.length (mergeAll_map_msgid rs cat)
      simpa using hc
    obtain ⟨hlt, _⟩ := List.get?_eq_some.mp hi
    obtain ⟨e0, h0⟩ : ∃ e0, cat.get? i = some e0 := by
      cases hc : cat.get? i with
      | some e0 => exact ⟨e0, rfl⟩
      | none =>
        have := List.get?_eq_none.mp hc
        omega
    obtain ⟨e1, he1, hid1, hpl1, hocc1⟩ := mergeAll_get?_shape rs cat i e0 h0
    have hee : e1 = e' := by
      rw [he1] at hi
      exact Option.some.inj hi
    subst hee
    by_cases ht0 : e0.translated = true
    · have hnorec : ∀ p ∈ rs, p.1 ≠ e0.msgid := by
        intro p hp hEq
        rw [hrs] at hp
        obtain ⟨r, hr, rfl⟩ := List.mem_map.mp hp
        obtain ⟨e2, he2, ht2, hre⟩ := mem_extractWith (hX ▸ hr)
        have hid2 : e2.msgid = e0.msgid := by
          rw [hre] at hEq
          exact hEq
        have heq2 := List.inj_on_of_nodup_map hnd he2 (List.get?_mem h0) hid2
        rw [heq2] at ht2
        rw [ht0] at ht2
        exact Bool.noConfusion ht2
      have hpres := mergeAll_get?_of_not_mem rs cat i e0 h0 hnorec
      have : e1 = e0 := by
        rw [hpres] at he1
        exact (Option.some.inj he1).symm
      left
      rw [this]
      exact ht0
    · have ht0' : e0.translated = false := by simpa using ht0
      by_cases hr0 : ro e0.occurrences = true
      · have hmm : e0.msgid ∈ X.map XRecord.msgid := by
          rw [hX, extractWith]
          exact extractGo_msgid_mem (fun e => ro e.occurrences) cat [] e0
            (List.get?_mem h0) ht0' hr0
        obtain ⟨r, hrX, hrid⟩ := List.mem_map.mp hmm
        obtain ⟨e'', he'', htr⟩ := hsecond r hrX
        have hnd' : ((mergeAll rs cat).1.map Entry.msgid).Nodup := by
          rw [mergeAll_map_msgid]
          exact hnd
        have hfe1 : findEntry (mergeAll rs cat).1 e1.msgid = some e1 :=
          findEntry_of_mem_nodup _ hnd' e1 he'
        have hfe2 : findEntry (mergeAll rs cat).1 e1.msgid = some e'' := by
          rw [hid1, ← hrid]
          exact he''
        have : e'' = e1 := by
          rw [hfe1] at hfe2
          exact (Option.some.inj hfe2).symm
        left
        rw [← this]
        exact htr
      · right
        show ro e1.occurrences = false
        rw [hocc1]
        simpa using hr0
  rw [extractWith]
  exact extractGo_skip_all _ _ _ hnil

theorem c4_round_trip_witness :
    (([⟨"a", "", "", [], false, []⟩] : List Entry).map Entry.msgid).Nodup ∧
    (∀ r ∈ extractWith (fun e => (fun _ => true) e.occurrences)
        [⟨"a", "", "", [], false, []⟩], pyBlank ((fun _ => "X") r.msgid) = false) ∧
    (extractWith (fun e => (fun _ => true) e.occurrences)
        (mergeAll ((extractWith (fun e => (fun _ => true) e.occurrences)
              [⟨"a", "", "", [], false, []⟩]).map
            (fun r => (r.msgid, TransValue.legacy ((fun _ => "X") r.msgid))))
          [⟨"a", "", "", [], false, []⟩]).1 = [] ∧
      (∀ r ∈ extractWith (fun e => (fun _ => true) e.occurrences)
          [⟨"a", "", "", [], false, []⟩],
        ∃ e', findEntry (mergeAll ((extractWith (fun e => (fun _ => true) e.occurrences)
                [⟨"a", "", "", [], false, []⟩]).map
              (fun r => (r.msgid, TransValue.legacy ((fun _ => "X") r.msgid))))
            [⟨"a", "", "", [], false, []⟩]).1 r.msgid = some e' ∧
          e'.translated = true)) :=
  ⟨by decide, by decide,
    c4_round_trip (fun _ => true) [⟨"a", "", "", [], false, []⟩] (fun _ => "X")
      (by decide) (by decide)⟩
